import Mathlib

/-!
Verification development for the vite-docs documentation compiler scripts.

The repository contains three sibling scripts that crawl a documentation
tree, normalize each file's content to plain text and concatenate the
results:

* `sync-vite-docs.js` (the unnamed source file): walks `docs/`, strips YAML
  frontmatter, cleans Markdown/MDX bodies with a chain of regex replaces,
  inlines referenced snippet files, and runs a global `finalizeOutput`
  whitespace pass.
* `sync-docs-universal.mjs`: walks the repo root, classifies files by
  extension, extracts readable content per type (HTML via DOM surgery,
  YAML/JSON via parse + pretty-print re-serialization) and records
  processed/skipped log entries.
* `sync-docs.js`: a flat variant with a global frontmatter removal regex.

Strings are modelled as `List Char`.  JavaScript regular-expression
replacement is modelled by executable left-to-right scanners that mirror
the exact regexes of the source (lazy/greedy behaviour and the
continue-after-match rule of `String.replace` with the `g` flag).
External parsers (js-yaml, `JSON.parse`, JSDOM's HTML parser) are inputs of
the model: they appear as function parameters, with parse failure (a thrown
exception in the source, always caught) modelled as `Option.none`.
-/

/-! ### Basic character and list-of-char utilities -/

/-- The whitespace characters recognised by the model of JavaScript's
`trim`, `trimEnd` (space, tab, newline, carriage return, vertical tab,
form feed). -/
def isWsChar (c : Char) : Bool :=
  c = ' ' || c = '\t' || c = '\n' || c = '\r' || c = '\x0b' || c = '\x0c'

/-- ASCII lower-casing of one character, the model of
`String.prototype.toLowerCase` on the ASCII fragment used by the scripts. -/
def lowerChar (c : Char) : Char :=
  if 'A' ≤ c && c ≤ 'Z' then Char.ofNat (c.toNat + 32) else c

/-- Model of `String.prototype.trimStart`: drop leading whitespace. -/
def trimStartL (l : List Char) : List Char := l.dropWhile isWsChar

/-- Model of `String.prototype.trimEnd`: drop trailing whitespace. -/
def trimEndL (l : List Char) : List Char := (l.reverse.dropWhile isWsChar).reverse

/-- Model of `String.prototype.trim`: drop whitespace at both ends. -/
def trimL (l : List Char) : List Char := trimEndL (trimStartL l)

/-- Does `pat` occur as a contiguous substring? (model of
`String.prototype.includes`). -/
def hasSub (pat : List Char) : List Char → Bool
  | [] => pat.isEmpty
  | c :: rest => pat.isPrefixOf (c :: rest) || hasSub pat rest

/-- Model of `String.prototype.endsWith`. -/
def endsWithL (pat l : List Char) : Bool := pat.isSuffixOf l

/-- Split at newline characters (model of `text.split("\n")`). -/
def splitNl : List Char → List (List Char)
  | [] => [[]]
  | c :: rest =>
    if c = '\n' then [] :: splitNl rest
    else
      match splitNl rest with
      | [] => [[c]]
      | l :: ls => (c :: l) :: ls

/-- Join lines with newline characters (model of `lines.join("\n")`). -/
def joinNl : List (List Char) → List Char
  | [] => []
  | [x] => x
  | x :: xs => x ++ '\n' :: joinNl xs

/-! ### `path` module fragments used by the scripts -/

/-- The final path component (model of `path.basename(p)` for `/`-joined
paths). -/
def baseNameChars (p : List Char) : List Char :=
  (p.reverse.takeWhile (fun c => c ≠ '/')).reverse

/-- The extension of a path component, from the last dot, empty when the
only dot is the leading character (model of `path.extname` on a base
name). -/
def extOf (b : List Char) : List Char :=
  let r := b.reverse
  match r.dropWhile (fun c => c ≠ '.') with
  | '.' :: [] => []
  | '.' :: _ :: _ => '.' :: (r.takeWhile (fun c => c ≠ '.')).reverse
  | _ => []

/-- Lower-cased extension of a path, as used by
`path.extname(filePath).toLowerCase()`. -/
def extLower (p : List Char) : List Char :=
  (extOf (baseNameChars p)).map lowerChar

/-! ### sync-vite-docs.js: frontmatter extraction

`extractFrontmatter` matches `^---([\s\S]*?)---` (written here without the surrounding slashes) (anchored at the very
first character, no multiline flag, lazy inner part) and on a match removes
the matched block; `yaml.load` of the inner part is a parameter, `none`
standing for a thrown parse error, which the source catches and maps to
empty metadata. -/

/-- Search for the first occurrence of `---` (the lazy close of
`[\s\S]*?---`); returns the characters before it and the rest after it. -/
def findClose : List Char → Option (List Char × List Char)
  | '-' :: '-' :: '-' :: rest => some ([], rest)
  | c :: rest => (findClose rest).map (fun p => (c :: p.1, p.2))
  | [] => none

/-- The metadata object produced by parsing frontmatter; the scripts only
read its `title` field (`meta.title || baseTitle`). -/
structure FmMeta where
  title : Option (List Char)
deriving DecidableEq

/-- The empty metadata object. -/
def emptyMeta : FmMeta := ⟨none⟩

/-- Model of `extractFrontmatter(content)` from sync-vite-docs.js: on a
match of `^---([\s\S]*?)---` (written here without the surrounding slashes) the block is removed from the body and the
inner part is handed to the `yaml.load` parameter `y`; a parse failure
(`y _ = none`) keeps the stripped body and yields empty metadata; no match
returns the content unchanged. -/
def extractFrontmatter (y : List Char → Option FmMeta) (content : List Char) :
    List Char × FmMeta :=
  match content with
  | '-' :: '-' :: '-' :: rest =>
    match findClose rest with
    | some (inner, body) =>
      match y inner with
      | some m => (body, m)
      | none => (body, emptyMeta)
    | none => (content, emptyMeta)
  | _ => (content, emptyMeta)

/-- The body component alone: the removal of the same anchored lazy frontmatter match from the content. -/
def fmStrip (content : List Char) : List Char :=
  match content with
  | '-' :: '-' :: '-' :: rest =>
    match findClose rest with
    | some (_, body) => body
    | none => content
  | _ => content

/-- A `yaml.load` stand-in that always fails (throws). -/
def noYaml : List Char → Option FmMeta := fun _ => none

/-- Does the text start with the `---` marker? -/
def startsDash3 : List Char → Bool
  | '-' :: '-' :: '-' :: _ => true
  | _ => false

/-! ### sync-docs.js: the flat variants' global frontmatter removal

The two flat scripts clean each file with
`content.replace(/---[\s\S]*?---/g, "")`: unanchored, global, with the
same lazy close.  The matcher below drives the generic `scanRepl`
scanner, faithful to the continue-after-match semantics of a global
replace. -/

/-- Matcher of the unanchored lazy block `---`, anything, `---`: an
opening marker whose lazy close is found by `findClose`; the whole block
is replaced by the empty string. -/
def fmGlobalMatch : List Char → Option (List Char × List Char)
  | '-' :: '-' :: '-' :: rest =>
    (findClose rest).map (fun p => (([] : List Char), p.2))
  | _ => none

/-! ### sync-vite-docs.js: `finalizeOutput`

The source chains five steps over the whole assembled output:
`.replace(/(#+ .+)\n+\1/g, "$1")`, `.replace(/\n{3,}/g, "\n\n")`,
`.replace(/\n---\n+/g, "\n\n---\n\n")`, a per-line `trimEnd`,
and `.trim() + "\n"`.  Each global regex replace is modelled by a fueled
left-to-right scanner; the fuel is the input length, which suffices since
every step consumes at least one input character. -/

/-- The part of the regex `(#+ .+)\n+\1` after the hash run and the
mandatory space.  `#+` must be the maximal hash run (a space has to follow
it directly), `.+` runs to the end of the line (a dot never matches a
newline and anything shorter leaves a non-newline before `\n+`), `\n+`
takes the whole newline run (the backreference starts with `#`), and the
backreference must then be a prefix of the remainder.  Returns the capture
and the text after the match. -/
def headingTail (hashes r2 : List Char) : Option (List Char × List Char) :=
  let lineRest := r2.takeWhile (fun c => c ≠ '\n')
  if lineRest.isEmpty then none
  else
    let cap := hashes ++ ' ' :: lineRest
    let afterLine := r2.dropWhile (fun c => c ≠ '\n')
    let nls := afterLine.takeWhile (fun c => c = '\n')
    if nls.isEmpty then none
    else
      let afterNl := afterLine.dropWhile (fun c => c = '\n')
      if cap.isPrefixOf afterNl then some (cap, afterNl.drop cap.length)
      else none

/-- After the maximal hash run: the mandatory literal space, then
`headingTail` on the rest. -/
def headingAfterHash : List Char → List Char → Option (List Char × List Char)
  | hashes, ' ' :: r2 => headingTail hashes r2
  | _, _ => none

/-- The whole regex attempt at the head of the text: the hash run, the
mandatory space, then `headingTail`. -/
def headingMatch (l : List Char) : Option (List Char × List Char) :=
  match l with
  | '#' :: _ =>
    headingAfterHash (l.takeWhile (fun c => c = '#'))
      (l.dropWhile (fun c => c = '#'))
  | _ => none

/-- One step of a global regex replace: scan left to right; where the
matcher succeeds, emit its replacement and resume after the matched text
(the semantics of `String.replace` with the `g` flag); where it fails,
emit one character and advance.  The fuel is instantiated with the input
length, which suffices because every matcher below consumes at least one
character. -/
def scanRepl (m : List Char → Option (List Char × List Char)) :
    Nat → List Char → List Char
  | 0, l => l
  | _ + 1, [] => []
  | fuel + 1, c :: rest =>
    match m (c :: rest) with
    | some (out, after) => out ++ scanRepl m fuel after
    | none => c :: scanRepl m fuel rest

/-- The flat variants' whole cleaning step for frontmatter: the global
removal of every lazily matched `---`-delimited block, at adequate
fuel. -/
def fmStripAll (l : List Char) : List Char := scanRepl fmGlobalMatch l.length l

/-- Matcher of `\n{3,}`: a run of three or more newlines, replaced by
two; scanning resumes after the whole (greedy) run. -/
def collapseMatch : List Char → Option (List Char × List Char)
  | '\n' :: '\n' :: '\n' :: rest =>
    some ("\n\n".data, rest.dropWhile (fun c => c = '\n'))
  | _ => none

/-- Matcher of `\n---\n+`: a newline, the `---` marker and the greedy
newline run, replaced by the marker with exactly one blank line on each
side. -/
def sepMatch : List Char → Option (List Char × List Char)
  | '\n' :: '-' :: '-' :: '-' :: '\n' :: rest =>
    some ("\n\n---\n\n".data, rest.dropWhile (fun c => c = '\n'))
  | _ => none

/-- Model of `finalizeOutput(text)` from sync-vite-docs.js: duplicated
heading removal, blank-line collapsing, separator spacing normalization,
per-line right trim, global trim plus one trailing newline. -/
def finalizeOutput (l : List Char) : List Char :=
  let s1 := scanRepl headingMatch l.length l
  let s2 := scanRepl collapseMatch s1.length s1
  let s3 := scanRepl sepMatch s2.length s2
  let s4 := joinNl ((splitNl s3).map trimEndL)
  trimL s4 ++ ['\n']

/-! ### sync-vite-docs.js: the Markdown body cleanup chain

The source applies five chained global replaces to the frontmatter-stripped
body: removal of import lines (`import .*? from .*`), removal of export
lines (`export (const|default) .*`), removal of JSX block comments, removal
of fenced-code language annotations, and removal of HTML tags other than
those starting with `<code` or `<pre`.  Each is a matcher driven by
`scanRepl`. -/

/-- Matcher of `import .*? from .*`: the literal `import `, then (within
the line, a dot never matching a newline) ` from ` somewhere later; the
greedy trailing `.*` extends the match to the end of the line.  Replaced
by the empty string. -/
def importMatch (l : List Char) : Option (List Char × List Char) :=
  if ("import ".data).isPrefixOf l then
    let afterKw := l.drop 7
    if hasSub " from ".data (afterKw.takeWhile (fun c => c ≠ '\n')) then
      some ([], afterKw.dropWhile (fun c => c ≠ '\n'))
    else none
  else none

/-- Matcher of `export (const|default) .*`; the greedy `.*` extends the
match to the end of the line.  Replaced by the empty string. -/
def exportMatch (l : List Char) : Option (List Char × List Char) :=
  if ("export const ".data).isPrefixOf l then
    some ([], (l.drop 13).dropWhile (fun c => c ≠ '\n'))
  else if ("export default ".data).isPrefixOf l then
    some ([], (l.drop 15).dropWhile (fun c => c ≠ '\n'))
  else none

/-- Find the lazy close of a JSX block comment: the first occurrence of
star, slash, closing brace; returns the rest after it. -/
def findJsxClose : List Char → Option (List Char)
  | '*' :: '/' :: '\x7d' :: rest => some rest
  | _ :: rest => findJsxClose rest
  | [] => none

/-- Matcher of a JSX block comment (opening brace, slash, star, lazily up
to the first star, slash, closing brace).  Replaced by the empty
string. -/
def jsxMatch : List Char → Option (List Char × List Char)
  | '\x7b' :: '/' :: '*' :: rest => (findJsxClose rest).map (fun r => ([], r))
  | _ => none

/-- The fence language alternatives, in the order of the source regex
alternation `(tsx|jsx|ts|js|javascript|typescript|html|css|bash|sh)`. -/
def fenceLangs : List (List Char) :=
  ["tsx".data, "jsx".data, "ts".data, "js".data, "javascript".data,
   "typescript".data, "html".data, "css".data, "bash".data, "sh".data]

/-- First alternative (in alternation order) that is a prefix of `l`;
returns the rest after it. -/
def firstLang : List (List Char) → List Char → Option (List Char)
  | [], _ => none
  | p :: ps, l => if p.isPrefixOf l then some (l.drop p.length) else firstLang ps l

/-- Matcher of a fence opener with a language annotation, replaced by the
bare fence. -/
def fenceMatch : List Char → Option (List Char × List Char)
  | '`' :: '`' :: '`' :: rest =>
    (firstLang fenceLangs rest).map (fun r => ("```".data, r))
  | _ => none

/-- Find the lazy end of `<.*?>`: the first `>` with no newline before it
(a dot never matches a newline); returns the middle and the rest. -/
def tagEnd : List Char → Option (List Char × List Char)
  | [] => none
  | '>' :: rest => some ([], rest)
  | '\n' :: _ => none
  | c :: rest => (tagEnd rest).map (fun p => (c :: p.1, p.2))

/-- The replacer callback of the tag-stripping replace: a tag is kept
verbatim exactly when its lower-cased text starts with `<code` or
`<pre`. -/
def keepTag (tag : List Char) : Bool :=
  ("<code".data).isPrefixOf (tag.map lowerChar) ||
  ("<pre".data).isPrefixOf (tag.map lowerChar)

/-- Matcher of `<.*?>` with the `keepTag` replacer callback. -/
def tagMatch : List Char → Option (List Char × List Char)
  | '<' :: rest =>
    (tagEnd rest).map (fun p =>
      ((if keepTag ('<' :: p.1 ++ ['>']) then '<' :: p.1 ++ ['>'] else []), p.2))
  | _ => none

/-- The tag-stripping pass at adequate fuel. -/
def stripTags (l : List Char) : List Char := scanRepl tagMatch l.length l

/-- The whole cleanup chain applied to a frontmatter-stripped body, in
source order: imports, exports, JSX comments, fence languages, HTML
tags. -/
def cleanupContent (l : List Char) : List Char :=
  let s1 := scanRepl importMatch l.length l
  let s2 := scanRepl exportMatch s1.length s1
  let s3 := scanRepl jsxMatch s2.length s2
  let s4 := scanRepl fenceMatch s3.length s3
  stripTags s4

/-! ### sync-vite-docs.js: snippet inlining

`inlineSnippetsIntoDoc` collects the matches of the global regex
with a quote, a lazy gap, the word `snippets` or `examples`, a lazy gap
and a quote (dots never matching newlines), resolves each match with the
quote characters removed against the document's directory, and appends
readable snippet files with recognised extensions as fenced code blocks.
Path resolution and the file system are parameters of the model. -/

/-- Is the character one of the two quote characters of the snippet
regex? -/
def isQuote (c : Char) : Bool := c = '\x27' || c = '"'

/-- Does `snippets` or `examples` start here? (both are 8 characters). -/
def kwAt (l : List Char) : Bool :=
  ("snippets".data).isPrefixOf l || ("examples".data).isPrefixOf l

/-- Lazy scan for the closing quote within the current line; returns the
consumed characters (closing quote included) and the rest. -/
def snipClose : List Char → Option (List Char × List Char)
  | [] => none
  | c :: rest =>
    if c = '\n' then none
    else if isQuote c then some ([c], rest)
    else (snipClose rest).map (fun p => (c :: p.1, p.2))

/-- Lazy scan within the current line for the keyword followed by a
closing quote; backtracks to a later keyword occurrence when no closing
quote follows.  Returns the consumed characters and the rest. -/
def snipFrom : List Char → Option (List Char × List Char)
  | [] => none
  | c :: rest =>
    if c = '\n' then none
    else if kwAt (c :: rest) then
      match snipClose ((c :: rest).drop 8) with
      | some (mid, after) => some ((c :: rest).take 8 ++ mid, after)
      | none => (snipFrom rest).map (fun p => (c :: p.1, p.2))
    else (snipFrom rest).map (fun p => (c :: p.1, p.2))

/-- All matches of the snippet-reference regex, in scan order. -/
def snipMatchesF : Nat → List Char → List (List Char)
  | 0, _ => []
  | _ + 1, [] => []
  | fuel + 1, c :: rest =>
    if isQuote c then
      match snipFrom rest with
      | some (mid, after) => (c :: mid) :: snipMatchesF fuel after
      | none => snipMatchesF fuel rest
    else snipMatchesF fuel rest

/-- The snippet extensions the source is willing to inline. -/
def snippetExts : List String :=
  [".js", ".jsx", ".ts", ".tsx", ".json", ".html", ".css",
   ".vite.config.js", ".vite.config.ts"]

/-- The directory part of a path (model of `path.dirname`). -/
def dirnameChars (p : List Char) : List Char :=
  match p.reverse.dropWhile (fun c => c ≠ '/') with
  | '/' :: t => t.reverse
  | _ => ['.']

/-- The external collaborators of snippet inlining: `path.resolve` of a
directory and a relative reference, and the file system (`none` models a
missing or unreadable snippet file). -/
structure SnipEnv where
  resolve : List Char → List Char → List Char
  readF : List Char → Option (List Char)

/-- Model of `inlineSnippetsIntoDoc(content, fullPath)`: every match of
the snippet regex (computed on the original content), with quote
characters removed, is resolved; existing files with recognised
extensions are appended as fenced blocks tagged by the extension without
its first dot. -/
def inlineSnippets (env : SnipEnv) (fullPath : List Char) (content : List Char) :
    List Char :=
  (snipMatchesF content.length content).foldl
    (fun acc m =>
      let rel := m.filter (fun c => !(isQuote c))
      let abs := env.resolve (dirnameChars fullPath) rel
      match env.readF abs with
      | none => acc
      | some code =>
        let ext := extOf (baseNameChars abs)
        if String.mk ext ∈ snippetExts then
          acc ++ "\n\n```".data ++ ext.drop 1 ++ '\n' :: trimL code ++ "\n```\n".data
        else acc)
    content

/-! ### sync-vite-docs.js: inclusion policy and tree walk -/

/-- Model of `shouldIncludeFile(fullPath)`: everything is included unless
the include-blog-and-release-notes option is off, in which case paths
containing a blog or changes directory and release-note file names are
rejected (all tests on the lower-cased full path). -/
def shouldIncludeFile (includeBlog : Bool) (fullPath : List Char) : Bool :=
  let lower := fullPath.map lowerChar
  if includeBlog then true
  else if hasSub "/blog/".data lower then false
  else if hasSub "/changes/".data lower then false
  else if endsWithL "releases.md".data lower then false
  else if endsWithL "release-notes.md".data lower then false
  else true

/-- Is the file a markdown-y source (`.md`, `.mdx`, `.markdown`)? -/
def mdExt (name : List Char) : Bool :=
  endsWithL ".md".data name || endsWithL ".mdx".data name ||
    endsWithL ".markdown".data name

mutual
/-- A directory entry of the modelled file tree: a file carries its name,
whether reading it succeeds, and its content; a directory carries its
name and children in listing order. -/
inductive FEntry where
  | file (name : String) (readable : Bool) (content : String)
  | dir (name : String) (children : FForest)
/-- A directory listing, in order. -/
inductive FForest where
  | nil
  | cons (e : FEntry) (rest : FForest)
end

/-- One section of the compiled document: the chosen title and the cleaned
body. -/
structure DocSection where
  title : List Char
  body : List Char
deriving DecidableEq

/-- The configuration and external collaborators of the sync-vite-docs.js
walk: the include-blog flag, `yaml.load` for frontmatter, and the snippet
environment. -/
structure WalkEnv where
  includeBlog : Bool
  yload : List Char → Option FmMeta
  snip : SnipEnv

mutual
/-- Model of the body of the `walk` loop of sync-vite-docs.js for one
entry: directories not starting with a dot are recursed into; markdown-y
files passing `shouldIncludeFile` and readable are frontmatter-stripped,
cleaned, snippet-inlined, and contribute one section whose title is the
frontmatter title when present and truthy, else the base name without
extension. -/
def walkEntry (env : WalkEnv) (dirPath : List Char) : FEntry → List DocSection
  | .file name readable content =>
    let fullPath := dirPath ++ '/' :: name.data
    if mdExt name.data then
      if shouldIncludeFile env.includeBlog fullPath then
        if readable then
          let fm := extractFrontmatter env.yload content.data
          let cleaned := cleanupContent fm.1
          let inlined := inlineSnippets env.snip fullPath cleaned
          let baseTitle := (name.data).take (name.data.length - (extOf name.data).length)
          let title :=
            match fm.2.title with
            | some t => if t.isEmpty then baseTitle else t
            | none => baseTitle
          [⟨title, trimL inlined⟩]
        else []
      else []
    else []
  | .dir name children =>
    if name.data.take 1 = ['.'] then []
    else walkForest env (dirPath ++ '/' :: name.data) children
/-- Model of `walk` over a directory listing, in order. -/
def walkForest (env : WalkEnv) (dirPath : List Char) : FForest → List DocSection
  | .nil => []
  | .cons e rest => walkEntry env dirPath e ++ walkForest env dirPath rest
end

/-- The section block appended to the accumulated output for one cleaned
file. -/
def sectionBlock (s : DocSection) : List Char :=
  "\n---\n# ".data ++ s.title ++ "\n\n".data ++ s.body ++ ['\n']

/-- The full compiled text of sync-vite-docs.js: the document header, the
section blocks in walk order, and the finalization pass. -/
def compileDocs (env : WalkEnv) (forest : FForest) : List Char :=
  finalizeOutput
    ((walkForest env "docs".data forest).foldl
      (fun acc s => acc ++ sectionBlock s) "# Vite Documentation\n\n".data)

/-! ### sync-docs-universal.mjs: structured values and pretty JSON

`extractReadableContent` re-serializes parsed YAML/JSON values with
`JSON.stringify(parsed, null, 2)`.  Values and the two-space pretty
printer are modelled below. -/

mutual
/-- A structured value as produced by `yaml.load` or `JSON.parse`. -/
inductive JVal where
  | jnull
  | jbool (b : Bool)
  | jnum (n : Int)
  | jstr (s : List Char)
  | jarr (items : JList)
  | jobj (fields : JObj)
/-- A list of values. -/
inductive JList where
  | nil
  | cons (v : JVal) (rest : JList)
/-- An object's fields, in insertion order. -/
inductive JObj where
  | nil
  | cons (key : List Char) (v : JVal) (rest : JObj)
end

/-- JSON string escaping of one character. -/
def jescChar (c : Char) : List Char :=
  if c = '"' then ['\\', '"']
  else if c = '\\' then ['\\', '\\']
  else if c = '\n' then ['\\', 'n']
  else if c = '\t' then ['\\', 't']
  else if c = '\r' then ['\\', 'r']
  else [c]

/-- A JSON-quoted string. -/
def jquote (s : List Char) : List Char :=
  '"' :: s.foldr (fun c acc => jescChar c ++ acc) ['"']

/-- Indentation of `n` spaces. -/
def spacesL (n : Nat) : List Char := List.replicate n ' '

mutual
/-- Model of `JSON.stringify(v, null, 2)` at nesting depth `d`. -/
def jShow (d : Nat) : JVal → List Char
  | .jnull => "null".data
  | .jbool true => "true".data
  | .jbool false => "false".data
  | .jnum n => (toString n).data
  | .jstr s => jquote s
  | .jarr .nil => "[]".data
  | .jarr items =>
    '[' :: '\n' :: jShowItems (d + 1) items ++ '\n' :: spacesL (2 * d) ++ [']']
  | .jobj .nil => "\x7b\x7d".data
  | .jobj fields =>
    '\x7b' :: '\n' :: jShowFields (d + 1) fields ++ '\n' :: spacesL (2 * d) ++ ['\x7d']
/-- Array items, one per line, comma separated. -/
def jShowItems (d : Nat) : JList → List Char
  | .nil => []
  | .cons v .nil => spacesL (2 * d) ++ jShow d v
  | .cons v rest => spacesL (2 * d) ++ jShow d v ++ ',' :: '\n' :: jShowItems d rest
/-- Object fields, one per line, comma separated. -/
def jShowFields (d : Nat) : JObj → List Char
  | .nil => []
  | .cons k v .nil => spacesL (2 * d) ++ jquote k ++ ':' :: ' ' :: jShow d v
  | .cons k v rest =>
    spacesL (2 * d) ++ jquote k ++ ':' :: ' ' :: jShow d v ++ ',' :: '\n' ::
      jShowFields d rest
end

/-- Top-level pretty printing, depth 0. -/
def jsonPretty (v : JVal) : List Char := jShow 0 v

/-! ### sync-docs-universal.mjs: the HTML document model

For `.html`/`.htm` files the source parses the content with JSDOM, removes
every `nav, footer, header, menu, aside` element, replaces every
`iframe[src*='youtube']` with a placeholder text line, and returns the
body's trimmed text content.  The parsed body is modelled as a forest of
nodes; the parser itself is a parameter. -/

mutual
/-- A DOM node: an element with tag name, attributes and children, or a
text node. -/
inductive HNode where
  | elem (tag : String) (attrs : List (String × String)) (kids : HForest)
  | htext (s : List Char)
/-- A list of sibling DOM nodes. -/
inductive HForest where
  | nil
  | cons (h : HNode) (rest : HForest)
end

/-- Concatenation of sibling lists. -/
def happend : HForest → HForest → HForest
  | .nil, g => g
  | .cons h r, g => .cons h (happend r g)

/-- The structural chrome tag names removed before text extraction. -/
def chromeTags : List String := ["nav", "footer", "header", "menu", "aside"]

mutual
/-- Removal of chrome elements from one node: a chrome-tagged element
disappears with its whole subtree, any other node is kept with its
children filtered. -/
def rmChromeN : HNode → HForest
  | .htext s => .cons (.htext s) .nil
  | .elem t a k =>
    if t ∈ chromeTags then .nil else .cons (.elem t a (rmChromeF k)) .nil
/-- Removal of chrome elements from a forest. -/
def rmChromeF : HForest → HForest
  | .nil => .nil
  | .cons h r => happend (rmChromeN h) (rmChromeF r)
end

/-- The `src` attribute, when present (model of `getAttribute("src")` and
of the attribute test of the selector). -/
def getSrc (a : List (String × String)) : Option String :=
  (a.find? (fun p => p.1 == "src")).map (fun p => p.2)

mutual
/-- Replacement of YouTube iframes in one node: an `iframe` whose `src`
attribute contains `youtube` becomes the literal placeholder text line
with the original source URL. -/
def ytReplN : HNode → HNode
  | .htext s => .htext s
  | .elem t a k =>
    if t == "iframe" &&
        (match getSrc a with
         | some s => hasSub "youtube".data s.data
         | none => false) then
      .htext ("[YouTube video link]: ".data ++
        (match getSrc a with | some s => s.data | none => []))
    else .elem t a (ytReplF k)
/-- Replacement of YouTube iframes in a forest. -/
def ytReplF : HForest → HForest
  | .nil => .nil
  | .cons h r => .cons (ytReplN h) (ytReplF r)
end

mutual
/-- The text content of one node (model of `textContent`: the
concatenation of all text nodes beneath, with no added separators). -/
def textN : HNode → List Char
  | .htext s => s
  | .elem _ _ k => textF k
/-- The text content of a forest. -/
def textF : HForest → List Char
  | .nil => []
  | .cons h r => textN h ++ textF r
end

mutual
/-- The number of chrome-tagged elements anywhere in one node. -/
def chromeCountN : HNode → Nat
  | .htext _ => 0
  | .elem t _ k => (if t ∈ chromeTags then 1 else 0) + chromeCountF k
/-- The number of chrome-tagged elements anywhere in a forest. -/
def chromeCountF : HForest → Nat
  | .nil => 0
  | .cons h r => chromeCountN h + chromeCountF r
end

/-- The HTML branch of `extractReadableContent` applied to a parsed body:
chrome removal, then iframe replacement, then trimmed text content. -/
def htmlText (f : HForest) : List Char := trimL (textF (ytReplF (rmChromeF f)))

/-! ### sync-docs-universal.mjs: extraction and crawl -/

/-- The external parsers consumed by the universal extractor: `yaml.load`,
`JSON.parse` (with `none` for a thrown parse error) and JSDOM's HTML
parser, which yields the document body's children. -/
structure XP where
  yload : List Char → Option JVal
  jload : List Char → Option JVal
  hparse : List Char → HForest

/-- Model of `extractReadableContent(filePath, content)`: HTML is parsed
and reduced to readable text, YAML and JSON are parsed and re-serialized
as pretty JSON with the raw text passed through unchanged on a parse
failure, and every other type passes through unchanged. -/
def extractReadableContent (P : XP) (filePath : List Char) (content : List Char) :
    List Char :=
  let ext := String.mk (extLower filePath)
  if ext = ".html" || ext = ".htm" then htmlText (P.hparse content)
  else if ext = ".yaml" || ext = ".yml" then
    match P.yload content with
    | some v => jsonPretty v
    | none => content
  else if ext = ".json" then
    match P.jload content with
    | some v => jsonPretty v
    | none => content
  else content

/-- The status of a visited file, one per log category of the source:
processed, skipped for a binary extension, skipped as empty or invalid
after extraction, skipped for an unrecognised extension. -/
inductive RStatus where
  | processed
  | skippedBinary
  | skippedEmptyInvalid
  | skippedExt
deriving DecidableEq

/-- The record the crawl produces for one visited file: its path
components relative to the root, its status, and the extracted text for
processed files. -/
structure XRec where
  relPath : List String
  status : RStatus
  text : List Char
deriving DecidableEq

/-- The excluded directory names of sync-docs-universal.mjs. -/
def excludeDirs : List String :=
  ["node_modules", ".git", "dist", "build", ".next", ".astro", ".cache"]

/-- The included text/doc extensions of sync-docs-universal.mjs. -/
def includeExts : List String :=
  [".md", ".mdx", ".html", ".htm", ".txt", ".js", ".jsx", ".ts", ".tsx",
   ".json", ".yaml", ".yml"]

/-- The hard-skipped binary extensions of sync-docs-universal.mjs. -/
def skipExts : List String :=
  [".png", ".jpg", ".jpeg", ".gif", ".svg", ".webp", ".mp4", ".mov", ".avi",
   ".zip", ".pdf", ".woff", ".woff2", ".ttf", ".eot", ".ico"]

/-- Slash-joined relative path. -/
def joinPath : List String → List Char
  | [] => []
  | [x] => x.data
  | x :: xs => x.data ++ '/' :: joinPath xs

mutual
/-- Model of the body of the `crawlDir` loop for one entry: a directory
whose name is in the excluded set is not recursed into at all; a file is
skipped by binary extension, otherwise read (`safeRead` yielding the empty
string on a read failure), extracted, and recorded as processed exactly
when the extracted text is non-empty after trimming. -/
def crawlEntry (P : XP) (rel : List String) : FEntry → List XRec
  | .dir name children =>
    if name ∈ excludeDirs then [] else crawlForest P (rel ++ [name]) children
  | .file name readable content =>
    let ext := String.mk (extLower name.data)
    if ext ∈ skipExts then [⟨rel ++ [name], .skippedBinary, []⟩]
    else if ext ∈ includeExts then
      let raw := if readable then content.data else []
      let cleaned := extractReadableContent P (joinPath (rel ++ [name])) raw
      if (trimL cleaned).isEmpty then [⟨rel ++ [name], .skippedEmptyInvalid, []⟩]
      else [⟨rel ++ [name], .processed, cleaned⟩]
    else [⟨rel ++ [name], .skippedExt, []⟩]
/-- Model of `crawlDir` over a directory listing, in order. -/
def crawlForest (P : XP) (rel : List String) : FForest → List XRec
  | .nil => []
  | .cons e rest => crawlEntry P rel e ++ crawlForest P rel rest
end

/-- Parsers that always fail, with an empty document body for HTML. -/
def xpNone : XP := ⟨fun _ => none, fun _ => none, fun _ => .nil⟩

/-! ### Concrete scenario data used by the theorems below -/

/-- The structured value of the scenario document `a: 1` newline
`b: two`. -/
def demoYamlVal : JVal :=
  .jobj (.cons "a".data (.jnum 1) (.cons "b".data (.jstr "two".data) .nil))

/-- A parser answering exactly the scenario document. -/
def yamlDemoXP : XP :=
  ⟨fun c => if c = "a: 1\nb: two".data then some demoYamlVal else none,
   fun _ => none, fun _ => .nil⟩

/-- The scenario HTML source. -/
def demoHtml : String := "<html><body><nav>X</nav><p>Hello</p></body></html>"

/-- The document body JSDOM builds for the scenario source. -/
def demoBody : HForest :=
  .cons (.elem "nav" [] (.cons (.htext "X".data) .nil))
    (.cons (.elem "p" [] (.cons (.htext "Hello".data) .nil)) .nil)

/-- A parser answering the scenario document body. -/
def htmlDemoXP : XP := ⟨fun _ => none, fun _ => none, fun _ => demoBody⟩

/-- The scenario tree: `guide/intro.md` with a `title: Intro` frontmatter
and body `# Hello`, and `blog/post.md` without frontmatter. -/
def demoTree : FForest :=
  .cons (.dir "guide"
      (.cons (.file "intro.md" true "---\ntitle: Intro\n---\n\n# Hello") .nil))
    (.cons (.dir "blog"
      (.cons (.file "post.md" true "# Post\n\nwords") .nil)) .nil)

/-- The frontmatter parser of the scenario. -/
def yIntro : List Char → Option FmMeta :=
  fun i => if i = "\ntitle: Intro\n".data then some ⟨some "Intro".data⟩ else none

/-- A snippet environment with an empty file system. -/
def snTriv : SnipEnv := ⟨fun _ _ => [], fun _ => none⟩

/-! ### Generic facts about the replace scanner -/

/-- A global replace whose matcher fails at every scan position leaves the
text unchanged. -/
theorem scanRepl_id (m : List Char → Option (List Char × List Char)) :
    ∀ (n : Nat) (l : List Char),
      (∀ c rest, (c :: rest) <:+ l → m (c :: rest) = none) →
      scanRepl m n l = l
  | 0, l, _ => rfl
  | _ + 1, [], _ => rfl
  | n + 1, c :: rest, h => by
    have h0 := h c rest (List.suffix_refl _)
    have ih := scanRepl_id m n rest
      (fun c' r' hs => h c' r' (hs.trans (List.suffix_cons c rest)))
    simp only [scanRepl, h0, ih]

/-! ### The flat variants' global removal: one pass leaves no match

After one global pass of the lazy `---`-block removal, the residual text
can contain no further match: a `---` occurrence inside an emitted gap
followed by a later close would itself have been matched (the scan is
leftmost), and dashes emitted directly before a match start would have
extended a match starting earlier.  The invariant below makes this
precise: no suffix of the scan's output matches, hence a second pass is
the identity. -/

/-- What a successful `findClose` found: the close splits the text. -/
theorem findClose_spec (r : List Char) :
    ∀ i a, findClose r = some (i, a) → r = i ++ '-' :: '-' :: '-' :: a := by
  induction r with
  | nil => intro i a h; exact absurd h (by simp [findClose])
  | cons c rest ihr =>
    intro i a h
    rw [findClose.eq_def] at h
    split at h
    · rename_i rest' heq
      injection h with h1
      injection h1 with hi ha
      rw [heq, ← hi, ← ha]
      rfl
    · rename_i c' rest' heq
      injection heq with he1 he2
      subst he1
      subst he2
      rcases Option.map_eq_some'.mp h with ⟨⟨i', a'⟩, hfc, hpair⟩
      simp only [Prod.mk.injEq] at hpair
      obtain ⟨h1, h2⟩ := hpair
      subst h1
      subst h2
      rw [ihr i' a' hfc]
      rfl
    · simp_all

/-- A text satisfying the marker test starts with three dashes. -/
theorem startsDash3_shape {u : List Char} (h : startsDash3 u = true) :
    ∃ x, u = '-' :: '-' :: '-' :: x := by
  rw [startsDash3.eq_def] at h
  split at h
  · rename_i x
    exact ⟨x, rfl⟩
  · exact absurd h (by simp)

/-- When no close exists, no suffix starts with the `---` marker. -/
theorem findClose_none_sub :
    ∀ r : List Char, findClose r = none →
      ∀ u, u <:+ r → startsDash3 u = false := by
  intro r
  induction r with
  | nil =>
    intro _ u hu
    rw [List.suffix_nil.mp hu]
    rfl
  | cons c rest ihr =>
    intro h u hu
    have hrest : findClose rest = none := by
      rw [findClose.eq_def] at h
      split at h
      · exact absurd h (by simp)
      · rename_i c' rest' heq
        injection heq with he1 he2
        subst he2
        exact Option.map_eq_none'.mp h
      · simp_all
    rcases List.suffix_cons_iff.mp hu with he | hu'
    · rw [he]
      cases hsd : startsDash3 (c :: rest) with
      | false => rfl
      | true =>
        obtain ⟨x, hx⟩ := startsDash3_shape hsd
        rw [hx] at h
        rw [show findClose ('-' :: '-' :: '-' :: x) = some ([], x) from rfl] at h
        exact absurd h (by simp)
    · exact ihr hrest u hu'

/-- The global matcher fails unless the text starts with a dash. -/
theorem fmGlobalMatch_cons_ne {c : Char} (rest : List Char) (h : c ≠ '-') :
    fmGlobalMatch (c :: rest) = none := by
  rw [fmGlobalMatch.eq_def]
  split
  · rename_i r heq
    injection heq with h1 _
    exact absurd h1 h
  · rfl

/-- The global matcher fails when the second character is not a dash. -/
theorem fmGlobalMatch_none_two {b : Char} (w : List Char) (h : b ≠ '-') :
    fmGlobalMatch ('-' :: b :: w) = none := by
  rw [fmGlobalMatch.eq_def]
  split
  · rename_i r heq
    injection heq with _ h1
    injection h1 with h2 _
    exact absurd h2 h
  · rfl

/-- The global matcher fails when the third character is not a dash. -/
theorem fmGlobalMatch_none_three {y : Char} (w : List Char) (h : y ≠ '-') :
    fmGlobalMatch ('-' :: '-' :: y :: w) = none := by
  rw [fmGlobalMatch.eq_def]
  split
  · rename_i r heq
    injection heq with _ h1
    injection h1 with _ h2
    injection h2 with h3 _
    exact absurd h3 h
  · rfl

/-- The shape of a successful global match: an opening marker whose close
was found, with an empty replacement. -/
theorem fmGlobalMatch_some_shape {u : List Char} {p : List Char × List Char}
    (h : fmGlobalMatch u = some p) :
    ∃ r' i aft, u = '-' :: '-' :: '-' :: r' ∧
      findClose r' = some (i, aft) ∧ p = ([], aft) := by
  rw [fmGlobalMatch.eq_def] at h
  split at h
  · rename_i r
    rcases Option.map_eq_some'.mp h with ⟨⟨i', a'⟩, hfc, hpair⟩
    exact ⟨r, i', a', rfl, hfc, hpair.symm⟩
  · exact absurd h (by simp)

/-- The scanner maps empty input to empty output at any fuel. -/
theorem scanRepl_nil (m : List Char → Option (List Char × List Char))
    (n : Nat) : scanRepl m n [] = [] := by
  cases n <;> rfl

/-- When a block has no close, no suffix of the two leading dashes plus
that block matches: a match there would exhibit a close inside the
block. -/
theorem match_none_in_ddr {r : List Char} (hfc : findClose r = none) :
    ∀ u, u <:+ '-' :: '-' :: r → fmGlobalMatch u = none := by
  intro u hu
  cases hm : fmGlobalMatch u with
  | none => rfl
  | some p =>
    exfalso
    obtain ⟨r', i, aft, huu, hfc', _⟩ := fmGlobalMatch_some_shape hm
    have hr' : r' <:+ r := by
      rcases List.suffix_cons_iff.mp hu with he | hu2
      · rw [huu] at he
        injection he with _ h1
        injection h1 with _ h2
        rw [← h2]
        exact List.suffix_cons '-' r'
      · rcases List.suffix_cons_iff.mp hu2 with he | hu3
        · rw [huu] at he
          injection he with _ h1
          rw [← h1]
          exact (List.suffix_cons '-' r').trans (List.suffix_cons '-' _)
        · rw [huu] at hu3
          exact ((List.suffix_cons '-' r').trans
            ((List.suffix_cons '-' _).trans (List.suffix_cons '-' _))).trans hu3
    have hspec := findClose_spec r' i aft hfc'
    have hsfx : ('-' :: '-' :: '-' :: aft) <:+ r' := ⟨i, hspec.symm⟩
    have := findClose_none_sub r hfc _ (hsfx.trans hr')
    simp [startsDash3] at this

/-- The central invariant: at adequate fuel, no suffix of the global
scan's output matches the global matcher. -/
theorem fmScan_clean :
    ∀ (n : Nat) (l : List Char), l.length ≤ n →
      ∀ c rest, (c :: rest) <:+ scanRepl fmGlobalMatch n l →
        fmGlobalMatch (c :: rest) = none := by
  intro n
  induction n with
  | zero =>
    intro l hlen c rest hs
    have hl : l = [] := List.length_eq_zero.mp (Nat.le_zero.mp hlen)
    subst hl
    rw [show scanRepl fmGlobalMatch 0 [] = [] from rfl] at hs
    exact absurd (List.suffix_nil.mp hs) (List.cons_ne_nil c rest)
  | succ n ih =>
    intro l hlen c rest hs
    rcases l with _ | ⟨a, l'⟩
    · rw [show scanRepl fmGlobalMatch (n + 1) [] = [] from rfl] at hs
      exact absurd (List.suffix_nil.mp hs) (List.cons_ne_nil c rest)
    · have hlen' : l'.length ≤ n := by
        simpa using hlen
      cases hm : fmGlobalMatch (a :: l') with
      | some p =>
        obtain ⟨r', i, aft, hu, hfc, hp⟩ := fmGlobalMatch_some_shape hm
        subst hp
        have hspec := findClose_spec r' i aft hfc
        have haft : aft.length ≤ n := by
          have h1 := congrArg List.length hu
          have h2 := congrArg List.length hspec
          simp [List.length_append] at h1 h2
          omega
        have hscan : scanRepl fmGlobalMatch (n + 1) (a :: l') =
            scanRepl fmGlobalMatch n aft := by
          simp [scanRepl, hm]
        rw [hscan] at hs
        exact ih aft haft c rest hs
      | none =>
        have hscan : scanRepl fmGlobalMatch (n + 1) (a :: l') =
            a :: scanRepl fmGlobalMatch n l' := by
          simp [scanRepl, hm]
        rw [hscan] at hs
        rcases List.suffix_cons_iff.mp hs with he | hs'
        · injection he with h1 h2
          subst h1
          subst h2
          by_cases hd : c = '-'
          · subst hd
            rcases l' with _ | ⟨b, l2⟩
            · rw [scanRepl_nil]
              rfl
            · by_cases hb : b = '-'
              · subst hb
                rcases l2 with _ | ⟨e, l3⟩
                · obtain ⟨n2, rfl⟩ : ∃ n2, n = n2 + 1 := by
                    cases n with
                    | zero => simp at hlen'
                    | succ k => exact ⟨k, rfl⟩
                  rw [show scanRepl fmGlobalMatch (n2 + 1) ['-'] =
                      '-' :: scanRepl fmGlobalMatch n2 [] from by
                    simp [scanRepl, show fmGlobalMatch ['-'] = none from rfl]]
                  rw [scanRepl_nil]
                  rfl
                · by_cases he2 : e = '-'
                  · subst he2
                    have hfc : findClose l3 = none := by
                      rw [show fmGlobalMatch ('-' :: '-' :: '-' :: l3) =
                          (findClose l3).map (fun p => (([] : List Char), p.2))
                          from rfl] at hm
                      exact Option.map_eq_none'.mp hm
                    have hid : scanRepl fmGlobalMatch n ('-' :: '-' :: l3) =
                        '-' :: '-' :: l3 :=
                      scanRepl_id _ n _
                        (fun c2 r2 hs2 => match_none_in_ddr hfc _ hs2)
                    rw [hid]
                    exact hm
                  · obtain ⟨n2, rfl⟩ : ∃ n2, n = n2 + 1 := by
                      cases n with
                      | zero => simp at hlen'
                      | succ k => exact ⟨k, rfl⟩
                    rw [show scanRepl fmGlobalMatch (n2 + 1) ('-' :: e :: l3) =
                        '-' :: scanRepl fmGlobalMatch n2 (e :: l3) from by
                      simp [scanRepl, fmGlobalMatch_none_two l3 he2]]
                    rcases n2 with _ | n3
                    · rw [show scanRepl fmGlobalMatch 0 (e :: l3) = e :: l3
                        from rfl]
                      exact fmGlobalMatch_none_three _ he2
                    · rw [show scanRepl fmGlobalMatch (n3 + 1) (e :: l3) =
                          e :: scanRepl fmGlobalMatch n3 l3 from by
                        simp [scanRepl, fmGlobalMatch_cons_ne _ he2]]
                      exact fmGlobalMatch_none_three _ he2
              · obtain ⟨n2, rfl⟩ : ∃ n2, n = n2 + 1 := by
                  cases n with
                  | zero => simp at hlen'
                  | succ k => exact ⟨k, rfl⟩
                rw [show scanRepl fmGlobalMatch (n2 + 1) (b :: l2) =
                    b :: scanRepl fmGlobalMatch n2 l2 from by
                  simp [scanRepl, fmGlobalMatch_cons_ne _ hb]]
                exact fmGlobalMatch_none_two _ hb
          · exact fmGlobalMatch_cons_ne _ hd
        · exact ih l' hlen' c rest hs'

/-- A second global pass is the identity on the first pass's output. -/
theorem fmStripAll_idem (l : List Char) :
    fmStripAll (fmStripAll l) = fmStripAll l :=
  scanRepl_id fmGlobalMatch (fmStripAll l).length (fmStripAll l)
    (fun c rest hs => fmScan_clean l.length l (Nat.le_refl _) c rest hs)

/-! ### Claim C2: frontmatter stripping is not idempotent in general -/

/-- A text that does not start with the `---` marker is returned unchanged
with empty metadata. -/
theorem extractFrontmatter_no_marker (y : List Char → Option FmMeta)
    (b : List Char) (h : startsDash3 b = false) :
    extractFrontmatter y b = (b, emptyMeta) := by
  rw [extractFrontmatter.eq_def]
  split
  · simp [startsDash3] at h
  · rfl

/-- C2, counterexample: the stripped body of nine dashes followed by
`x---y` is `---x---y`, which a second extraction strips again, so
re-running extraction on already-stripped body text does change it. -/
theorem frontmatter_second_strip_changes :
    (extractFrontmatter noYaml
        (extractFrontmatter noYaml "---------x---y".data).1).1 ≠
      (extractFrontmatter noYaml "---------x---y".data).1 := by decide

/-- C2, amended: re-running `extractFrontmatter` on an already-stripped
body changes nothing whenever that body does not itself begin with the
`---` marker (when the lazily matched close is immediately followed by a
further `---` block, the second run strips again, as the counterexample
shows); and — unchanged from the original claim — the flat variants'
global removal of every lazy `---` block applied to its own output
produces no further change, unconditionally. -/
theorem frontmatter_strip_idempotence
    (y y' : List Char → Option FmMeta) (c : List Char)
    (h : startsDash3 (extractFrontmatter y c).1 = false) :
    ((extractFrontmatter y' (extractFrontmatter y c).1).1 =
        (extractFrontmatter y c).1) ∧
      ∀ l : List Char, fmStripAll (fmStripAll l) = fmStripAll l := by
  refine ⟨?_, fmStripAll_idem⟩
  rw [extractFrontmatter_no_marker y' _ h]

/-- Witness for the amended C2: a concrete document whose stripped body
does not restart a block, and the global removal re-applied to its own
output on a document with two blocks and stray dashes. -/
theorem frontmatter_strip_idempotence_witness :
    startsDash3 (extractFrontmatter noYaml "---a---body text".data).1 = false ∧
      (extractFrontmatter noYaml
          (extractFrontmatter noYaml "---a---body text".data).1).1 =
        (extractFrontmatter noYaml "---a---body text".data).1 ∧
      fmStripAll "x---a---y---b---z--".data = "xyz--".data ∧
      fmStripAll (fmStripAll "x---a---y---b---z--".data) =
        fmStripAll "x---a---y---b---z--".data :=
  ⟨by decide,
    (frontmatter_strip_idempotence noYaml noYaml "---a---body text".data
      (by decide)).1,
    by decide,
    (frontmatter_strip_idempotence noYaml noYaml "---a---body text".data
      (by decide)).2 "x---a---y---b---z--".data⟩

/-! ### Claim C10: the frontmatter regex is anchored and its close lazy -/

/-- C10: frontmatter is detected only when the opening marker starts at
the very first character: any content that does not begin with `---` — in
particular any content preceded by a single newline — is returned
unchanged with empty metadata; and the closing `---` is matched lazily, so
it need not stand on a line of its own (in `---a---b---` the first close
wins and the body keeps the trailing `---`). -/
theorem extractFrontmatter_anchored_lazy :
    (∀ (y : List Char → Option FmMeta) (c : List Char),
        startsDash3 c = false → extractFrontmatter y c = (c, emptyMeta)) ∧
    (∀ (y : List Char → Option FmMeta) (c : List Char),
        extractFrontmatter y ('\n' :: c) = ('\n' :: c, emptyMeta)) ∧
    extractFrontmatter noYaml "---a---b---".data = ("b---".data, emptyMeta) :=
  ⟨fun y c h => extractFrontmatter_no_marker y c h,
   fun y c => extractFrontmatter_no_marker y _ rfl,
   by decide⟩

/-- Witness for C10 at a concrete document with a leading blank line. -/
theorem extractFrontmatter_anchored_lazy_witness :
    startsDash3 "x---a---b".data = false ∧
      extractFrontmatter noYaml "x---a---b".data =
        ("x---a---b".data, emptyMeta) :=
  ⟨by decide, extractFrontmatter_anchored_lazy.1 noYaml _ (by decide)⟩

/-! ### Claim C4: extraction-level parse failures degrade, never escalate -/

/-- C4: the content extractor is a total function into strings, and parse
failures degrade per file: a YAML or JSON parse failure returns the raw
text unchanged, unrecognised plain types pass through, and a frontmatter
parse failure discards the frontmatter block anyway and continues with
empty metadata. -/
theorem extractor_parse_failure_fallbacks :
    (∀ (P : XP) (c : List Char), P.yload c = none →
        extractReadableContent P "doc.yaml".data c = c) ∧
    (∀ (P : XP) (c : List Char), P.jload c = none →
        extractReadableContent P "doc.json".data c = c) ∧
    (∀ (P : XP) (c : List Char), extractReadableContent P "doc.txt".data c = c) ∧
    (∀ (y : List Char → Option FmMeta) (rest inner body : List Char),
        findClose rest = some (inner, body) → y inner = none →
        extractFrontmatter y ('-' :: '-' :: '-' :: rest) = (body, emptyMeta)) := by
  refine ⟨fun P c h => ?_, fun P c h => ?_, fun P c => rfl, fun y rest inner body h1 h2 => ?_⟩
  · have e : extractReadableContent P "doc.yaml".data c =
        (match P.yload c with | some v => jsonPretty v | none => c) := rfl
    rw [e, h]
  · have e : extractReadableContent P "doc.json".data c =
        (match P.jload c with | some v => jsonPretty v | none => c) := rfl
    rw [e, h]
  · have e : extractFrontmatter y ('-' :: '-' :: '-' :: rest) =
        (match findClose rest with
         | some (inner, body) =>
           (match y inner with
            | some m => (body, m)
            | none => (body, emptyMeta))
         | none => ('-' :: '-' :: '-' :: rest, emptyMeta)) := rfl
    rw [e, h1]
    show (match y inner with
          | some m => (body, m)
          | none => (body, emptyMeta)) = (body, emptyMeta)
    rw [h2]

/-- Witness for C4 at concrete failing parses. -/
theorem extractor_parse_failure_fallbacks_witness :
    xpNone.yload "k: [".data = none ∧
      extractReadableContent xpNone "doc.yaml".data "k: [".data = "k: [".data ∧
      findClose "a---b".data = some ("a".data, "b".data) ∧
      noYaml "a".data = none ∧
      extractFrontmatter noYaml "---a---b".data = ("b".data, emptyMeta) :=
  ⟨rfl, extractor_parse_failure_fallbacks.1 xpNone _ rfl, rfl, rfl,
    extractor_parse_failure_fallbacks.2.2.2 noYaml "a---b".data "a".data "b".data rfl rfl⟩

/-! ### Claim C5: which tags the cleanup pass preserves -/

/-- The tag matcher fails wherever the text does not start with an opening
angle bracket. -/
theorem tagMatch_none {c : Char} (rest : List Char) (h : c ≠ '<') :
    tagMatch (c :: rest) = none := by
  rw [tagMatch.eq_def]
  split
  · rename_i rest' heq
    injection heq with h1 _
    exact absurd h1 h
  · rfl

/-- Text without an opening angle bracket is left unchanged by the
tag-stripping pass. -/
theorem stripTags_id_no_lt (l : List Char) (h : '<' ∉ l) : stripTags l = l := by
  refine scanRepl_id tagMatch l.length l (fun c rest hs => tagMatch_none rest ?_)
  intro e
  exact h (e ▸ hs.subset (List.mem_cons_self c rest))

/-- C5, counterexample: the closing tag of a code element has tag name
`code`, yet the cleanup pass removes it — `a</code>b` becomes `ab` — so
closing code/pre tags are not preserved verbatim. -/
theorem closing_code_tag_removed :
    stripTags "a</code>b".data = "ab".data ∧
      stripTags "a</code>b".data ≠ "a</code>b".data := ⟨by decide, by decide⟩

/-- C5, amended: the cleanup pass removes every lazily matched tag except
those whose lower-cased text begins with `<code` or `<pre`: opening code
and pre tags (of either case, and any tag whose name merely begins with
those letters, such as `<codex>`) survive verbatim, while all other tags,
including the closing tags of code and pre elements, are removed; text
with no opening angle bracket is untouched. -/
theorem stripTags_code_pre_openers_only :
    (∀ l : List Char, '<' ∉ l → stripTags l = l) ∧
    stripTags "a<code>b</code>c".data = "a<code>bc".data ∧
    stripTags "x<CODE>y</CODE>z".data = "x<CODE>yz".data ∧
    stripTags "p<pre>q</pre>r".data = "p<pre>qr".data ∧
    stripTags "<div>hi</div>".data = "hi".data ∧
    stripTags "<codex>w".data = "<codex>w".data :=
  ⟨stripTags_id_no_lt, by decide, by decide, by decide, by decide, by decide⟩

/-- Witness for the amended C5 on bracket-free text. -/
theorem stripTags_code_pre_openers_only_witness :
    '<' ∉ "hello world".data ∧
      stripTags "hello world".data = "hello world".data :=
  ⟨by decide, stripTags_code_pre_openers_only.1 "hello world".data (by decide)⟩

/-! ### Claim C7: YAML files re-serialize as pretty-printed JSON -/

/-- C7: a YAML file parses to a structured value and re-serializes as
two-space pretty-printed JSON; on parse failure the raw text passes
through unchanged; and the scenario input yields exactly the
pretty-printed JSON object with fields `a` and `b`. -/
theorem yaml_extraction_pretty_json :
    (∀ (P : XP) (c : List Char) (v : JVal), P.yload c = some v →
        extractReadableContent P "doc.yaml".data c = jsonPretty v) ∧
    (∀ (P : XP) (c : List Char), P.yload c = none →
        extractReadableContent P "doc.yaml".data c = c) ∧
    (∀ P : XP, P.yload "a: 1\nb: two".data = some demoYamlVal →
        extractReadableContent P "doc.yaml".data "a: 1\nb: two".data =
          "\x7b\n  \"a\": 1,\n  \"b\": \"two\"\n\x7d".data) := by
  refine ⟨fun P c v h => ?_, fun P c h => ?_, fun P h => ?_⟩
  · have e : extractReadableContent P "doc.yaml".data c =
        (match P.yload c with | some v => jsonPretty v | none => c) := rfl
    rw [e, h]
  · have e : extractReadableContent P "doc.yaml".data c =
        (match P.yload c with | some v => jsonPretty v | none => c) := rfl
    rw [e, h]
  · have e : extractReadableContent P "doc.yaml".data "a: 1\nb: two".data =
        (match P.yload "a: 1\nb: two".data with
         | some v => jsonPretty v
         | none => "a: 1\nb: two".data) := rfl
    rw [e, h]
    decide

/-- Witness for C7 at the scenario document. -/
theorem yaml_extraction_pretty_json_witness :
    yamlDemoXP.yload "a: 1\nb: two".data = some demoYamlVal ∧
      extractReadableContent yamlDemoXP "doc.yaml".data "a: 1\nb: two".data =
        "\x7b\n  \"a\": 1,\n  \"b\": \"two\"\n\x7d".data :=
  ⟨rfl, yaml_extraction_pretty_json.2.2 yamlDemoXP rfl⟩

/-! ### Claim C8: HTML chrome removal and text extraction -/

/-- Chrome counting distributes over sibling concatenation. -/
theorem chromeCountF_happend : ∀ f g : HForest,
    chromeCountF (happend f g) = chromeCountF f + chromeCountF g
  | .nil, g => by simp [happend, chromeCountF]
  | .cons h r, g => by
    simp [happend, chromeCountF, chromeCountF_happend r g, Nat.add_assoc]

mutual
/-- After chrome removal no chrome-tagged element remains in a node's
replacement. -/
theorem rmChromeN_count : ∀ h : HNode, chromeCountF (rmChromeN h) = 0
  | .htext s => rfl
  | .elem t a k => by
    by_cases ht : t ∈ chromeTags
    · simp [rmChromeN, ht, chromeCountF]
    · simp [rmChromeN, ht, chromeCountF, chromeCountN, rmChromeF_count k]
/-- After chrome removal no chrome-tagged element remains in a forest. -/
theorem rmChromeF_count : ∀ f : HForest, chromeCountF (rmChromeF f) = 0
  | .nil => rfl
  | .cons h r => by
    simp [rmChromeF, chromeCountF_happend, rmChromeN_count h, rmChromeF_count r]
end

/-- C8: HTML extraction removes every nav, footer, header, menu and aside
element at any depth before text extraction, replaces an iframe whose
`src` contains `youtube` by the placeholder line carrying the original
URL, and the scenario source yields exactly the text `Hello`. -/
theorem html_chrome_removed_text_extracted :
    (∀ f : HForest, chromeCountF (rmChromeF f) = 0) ∧
    (∀ (a : List (String × String)) (k : HForest) (u : String),
        getSrc a = some u → hasSub "youtube".data u.data = true →
        ytReplN (.elem "iframe" a k) =
          .htext ("[YouTube video link]: ".data ++ u.data)) ∧
    (∀ P : XP, P.hparse demoHtml.data = demoBody →
        extractReadableContent P "page.html".data demoHtml.data =
          "Hello".data) := by
  refine ⟨rmChromeF_count, fun a k u h1 h2 => ?_, fun P h => ?_⟩
  · simp [ytReplN, h1, h2]
  · have e : extractReadableContent P "page.html".data demoHtml.data =
        htmlText (P.hparse demoHtml.data) := rfl
    rw [e, h]
    decide

/-- Witness for C8 at the scenario source. -/
theorem html_chrome_removed_text_extracted_witness :
    htmlDemoXP.hparse demoHtml.data = demoBody ∧
      extractReadableContent htmlDemoXP "page.html".data demoHtml.data =
        "Hello".data :=
  ⟨rfl, html_chrome_removed_text_extracted.2.2 htmlDemoXP rfl⟩

/-! ### Claim C6: unreadable files are skipped, but not with a distinct
status

In sync-docs-universal.mjs a failing read is absorbed by `safeRead`, which
returns the empty string; the file then falls into the same
`Skipped (empty or invalid)` log category as a readable empty file.  The
run continues with the next entry; there is no separate
skipped-unreadable status. -/

/-- C6, counterexample: an unreadable markdown file and a readable empty
markdown file produce the same record — status `Skipped (empty or
invalid)` — so the unreadable file's status is not distinct from the
empty file's. -/
theorem unreadable_same_status_as_empty :
    crawlEntry xpNone [] (.file "a.md" false "# hi") =
        [⟨["a.md"], .skippedEmptyInvalid, []⟩] ∧
      crawlEntry xpNone [] (.file "a.md" true "") =
        [⟨["a.md"], .skippedEmptyInvalid, []⟩] ∧
      (crawlEntry xpNone [] (.file "a.md" false "# hi")).map XRec.status =
        (crawlEntry xpNone [] (.file "a.md" true "")).map XRec.status :=
  ⟨by decide, by decide, by decide⟩

/-- C6, amended: a failing read of an included non-binary file is
non-fatal: `safeRead` yields the empty string, the file is recorded with
exactly one record whose status is the same `Skipped (empty or invalid)`
category used for empty files (not a distinct skipped-unreadable status),
and the crawl continues with the remaining entries unchanged. -/
theorem unreadable_file_skipped_and_run_continues
    (P : XP) (rel : List String) (name content : String) (rest : FForest)
    (h1 : String.mk (extLower name.data) ∉ skipExts)
    (h2 : String.mk (extLower name.data) ∈ includeExts)
    (h3 : (trimL (extractReadableContent P (joinPath (rel ++ [name])) [])).isEmpty
        = true) :
    crawlEntry P rel (.file name false content) =
        [⟨rel ++ [name], .skippedEmptyInvalid, []⟩] ∧
      crawlForest P rel (.cons (.file name false content) rest) =
        crawlEntry P rel (.file name false content) ++ crawlForest P rel rest := by
  constructor
  · show (if String.mk (extLower name.data) ∈ skipExts then
          [⟨rel ++ [name], .skippedBinary, []⟩]
        else if String.mk (extLower name.data) ∈ includeExts then
          (if (trimL (extractReadableContent P (joinPath (rel ++ [name])) [])).isEmpty
              then ([⟨rel ++ [name], .skippedEmptyInvalid, []⟩] : List XRec)
            else [⟨rel ++ [name], .processed,
              extractReadableContent P (joinPath (rel ++ [name])) []⟩])
        else [⟨rel ++ [name], .skippedExt, []⟩]) =
      [⟨rel ++ [name], .skippedEmptyInvalid, []⟩]
    rw [if_neg h1, if_pos h2, h3]
    rfl
  · rfl

/-- Witness for the amended C6: the unreadable file is logged once and the
following entry is still processed. -/
theorem unreadable_file_skipped_and_run_continues_witness :
    String.mk (extLower "a.md".data) ∉ skipExts ∧
      String.mk (extLower "a.md".data) ∈ includeExts ∧
      (trimL (extractReadableContent xpNone (joinPath ["a.md"]) [])).isEmpty
        = true ∧
      crawlEntry xpNone [] (.file "a.md" false "# hi") =
        [⟨["a.md"], .skippedEmptyInvalid, []⟩] ∧
      crawlForest xpNone []
          (.cons (.file "a.md" false "# hi")
            (.cons (.file "b.txt" true "hi") .nil)) =
        crawlEntry xpNone [] (.file "a.md" false "# hi") ++
          crawlForest xpNone [] (.cons (.file "b.txt" true "hi") .nil) :=
  ⟨by decide, by decide, by decide,
    (unreadable_file_skipped_and_run_continues xpNone [] "a.md" "# hi"
      (.cons (.file "b.txt" true "hi") .nil) (by decide) (by decide) (by decide)).1,
    (unreadable_file_skipped_and_run_continues xpNone [] "a.md" "# hi"
      (.cons (.file "b.txt" true "hi") .nil) (by decide) (by decide) (by decide)).2⟩

/-! ### Claim C3: excluded directory subtrees contribute nothing -/

/-- Every record of a visited file has the path of that file: the file's
own name after the directory components accumulated while recursing. -/
theorem crawlEntry_file_shape (P : XP) (rel : List String) (n : String)
    (rd : Bool) (c : String) :
    ∃ st tx, crawlEntry P rel (.file n rd c) = [⟨rel ++ [n], st, tx⟩] := by
  simp only [crawlEntry]
  split
  · exact ⟨_, _, rfl⟩
  · split
    · split <;> split <;> exact ⟨_, _, rfl⟩
    · exact ⟨_, _, rfl⟩

/-- Dropping the last element of a cons with a non-empty tail keeps the
head. -/
theorem dropLast_cons_ne {α : Type} (a : α) (l : List α) (h : l ≠ []) :
    (a :: l).dropLast = a :: l.dropLast := by
  cases l with
  | nil => exact absurd rfl h
  | cons b t => rfl

mutual
/-- Any record produced below one entry extends the incoming relative path
by a non-empty suffix whose directory components all avoid the excluded
set. -/
theorem crawlEntry_path (P : XP) (rel : List String) :
    ∀ (e : FEntry), ∀ r ∈ crawlEntry P rel e,
      ∃ suf, r.relPath = rel ++ suf ∧ suf ≠ [] ∧
        ∀ d ∈ suf.dropLast, d ∉ excludeDirs
  | .file n rd c, r, hr => by
    obtain ⟨st, tx, he⟩ := crawlEntry_file_shape P rel n rd c
    rw [he] at hr
    rcases List.mem_singleton.mp hr with rfl
    exact ⟨[n], rfl, by simp, by simp⟩
  | .dir n children, r, hr => by
    by_cases hn : n ∈ excludeDirs
    · rw [show crawlEntry P rel (.dir n children) = [] from by
        simp [crawlEntry, hn]] at hr
      exact absurd hr (List.not_mem_nil r)
    · rw [show crawlEntry P rel (.dir n children) =
          crawlForest P (rel ++ [n]) children from by
        simp [crawlEntry, hn]] at hr
      obtain ⟨suf, hp, hne, hall⟩ := crawlForest_path P (rel ++ [n]) children r hr
      refine ⟨n :: suf, by simpa [List.append_assoc] using hp, by simp, ?_⟩
      intro d hd
      rw [dropLast_cons_ne n suf hne] at hd
      rcases List.mem_cons.mp hd with rfl | hd'
      · exact hn
      · exact hall d hd'
/-- Any record produced below a listing extends the incoming relative path
by a non-empty suffix whose directory components all avoid the excluded
set. -/
theorem crawlForest_path (P : XP) (rel : List String) :
    ∀ (f : FForest), ∀ r ∈ crawlForest P rel f,
      ∃ suf, r.relPath = rel ++ suf ∧ suf ≠ [] ∧
        ∀ d ∈ suf.dropLast, d ∉ excludeDirs
  | .nil, r, hr => absurd hr (List.not_mem_nil r)
  | .cons e rest, r, hr => by
    rw [show crawlForest P rel (.cons e rest) =
        crawlEntry P rel e ++ crawlForest P rel rest from rfl] at hr
    rcases List.mem_append.mp hr with h | h
    · exact crawlEntry_path P rel e r h
    · exact crawlForest_path P rel rest r h
end

/-- C3: no file beneath a directory whose name is in the excluded set ever
produces a record (processed or otherwise): every record's ancestor
directory components avoid the excluded names, because the walker tests
the exclusion by directory name before recursing; concretely, a `dist`
subtree containing a markdown file contributes nothing. -/
theorem excluded_dirs_contribute_nothing :
    (∀ (P : XP) (f : FForest), ∀ r ∈ crawlForest P [] f,
        ∀ d ∈ r.relPath.dropLast, d ∉ excludeDirs) ∧
      crawlForest xpNone []
          (.cons (.dir "dist" (.cons (.file "x.md" true "hello") .nil)) .nil) =
        [] := by
  refine ⟨fun P f r hr d hd => ?_, by decide⟩
  obtain ⟨suf, hp, hne, hall⟩ := crawlForest_path P [] f r hr
  rw [hp] at hd
  simp only [List.nil_append] at hd
  exact hall d hd

/-- Witness for C3: a concretely crawled record never lies beneath an
excluded directory. -/
theorem excluded_dirs_contribute_nothing_witness :
    (⟨["ok.md"], .processed, "hello".data⟩ : XRec) ∈
        crawlForest xpNone []
          (.cons (.dir "dist" (.cons (.file "x.md" true "hi") .nil))
            (.cons (.file "ok.md" true "hello") .nil)) ∧
      ∀ d ∈ (["ok.md"] : List String).dropLast, d ∉ excludeDirs :=
  ⟨by decide,
    excluded_dirs_contribute_nothing.1 xpNone
      (.cons (.dir "dist" (.cons (.file "x.md" true "hi") .nil))
        (.cons (.file "ok.md" true "hello") .nil))
      ⟨["ok.md"], .processed, "hello".data⟩ (by decide)⟩

/-! ### Claim C9: the include-blog scenario -/

set_option maxHeartbeats 1000000 in
/-- C9: with the include-blog-and-release-notes option off, the scenario
tree compiles to exactly one section, titled by the frontmatter title
`Intro` with body `# Hello`; the file under `blog` contributes no section;
and a file without a frontmatter title is titled by its base name without
extension. -/
theorem include_blog_false_scenario
    (y : List Char → Option FmMeta) (sn : SnipEnv)
    (hy : y "\ntitle: Intro\n".data = some ⟨some "Intro".data⟩) :
    walkForest ⟨false, y, sn⟩ "docs".data demoTree =
        [⟨"Intro".data, "# Hello".data⟩] ∧
      walkEntry ⟨false, y, sn⟩ "docs".data (.file "notes.md" true "plain words") =
        [⟨"notes".data, "plain words".data⟩] := by
  have hfm : extractFrontmatter y ("---\ntitle: Intro\n---\n\n# Hello".data) =
      ("\n\n# Hello".data, (⟨some "Intro".data⟩ : FmMeta)) := by
    have e : extractFrontmatter y ("---\ntitle: Intro\n---\n\n# Hello".data) =
        (match y "\ntitle: Intro\n".data with
         | some m => ("\n\n# Hello".data, m)
         | none => ("\n\n# Hello".data, emptyMeta)) := rfl
    rw [e, hy]
  have hintro : walkEntry ⟨false, y, sn⟩ "docs/guide".data
      (.file "intro.md" true "---\ntitle: Intro\n---\n\n# Hello") =
      [⟨"Intro".data, "# Hello".data⟩] := by
    simp only [walkEntry, hfm]
    rfl
  have hguide : walkEntry ⟨false, y, sn⟩ "docs".data
      (.dir "guide"
        (.cons (.file "intro.md" true "---\ntitle: Intro\n---\n\n# Hello") .nil)) =
      walkEntry ⟨false, y, sn⟩ "docs/guide".data
        (.file "intro.md" true "---\ntitle: Intro\n---\n\n# Hello") ++ [] := rfl
  have hblog : walkEntry ⟨false, y, sn⟩ "docs".data
      (.dir "blog" (.cons (.file "post.md" true "# Post\n\nwords") .nil)) =
      [] := rfl
  have hsplit : walkForest ⟨false, y, sn⟩ "docs".data demoTree =
      walkEntry ⟨false, y, sn⟩ "docs".data
          (.dir "guide"
            (.cons (.file "intro.md" true "---\ntitle: Intro\n---\n\n# Hello") .nil)) ++
        (walkEntry ⟨false, y, sn⟩ "docs".data
          (.dir "blog" (.cons (.file "post.md" true "# Post\n\nwords") .nil)) ++
          []) := rfl
  have hnotes : walkEntry ⟨false, y, sn⟩ "docs".data
      (.file "notes.md" true "plain words") =
      [⟨"notes".data, "plain words".data⟩] := by
    have e2 : extractFrontmatter y ("plain words".data) =
        ("plain words".data, emptyMeta) := rfl
    simp only [walkEntry, e2]
    rfl
  refine ⟨?_, hnotes⟩
  rw [hsplit, hguide, hblog, hintro]
  simp

/-- Witness for C9 at the scenario tree with a concrete parser. -/
theorem include_blog_false_scenario_witness :
    yIntro "\ntitle: Intro\n".data = some ⟨some "Intro".data⟩ ∧
      walkForest ⟨false, yIntro, snTriv⟩ "docs".data demoTree =
        [⟨"Intro".data, "# Hello".data⟩] :=
  ⟨rfl, (include_blog_false_scenario yIntro snTriv rfl).1⟩

/-! ### Claim C1: list toolkit for the finalization pass -/

/-- `takeWhile` keeps a list all of whose elements satisfy the
predicate. -/
theorem takeWhile_all (p : Char → Bool) :
    ∀ l : List Char, (∀ c ∈ l, p c = true) → l.takeWhile p = l
  | [], _ => rfl
  | c :: rest, h => by
    rw [List.takeWhile_cons, if_pos (h c (List.mem_cons_self c rest)),
      takeWhile_all p rest (fun x hx => h x (List.mem_cons_of_mem c hx))]

/-- `dropWhile` empties a list all of whose elements satisfy the
predicate. -/
theorem dropWhile_all (p : Char → Bool) :
    ∀ l : List Char, (∀ c ∈ l, p c = true) → l.dropWhile p = []
  | [], _ => rfl
  | c :: rest, h => by
    rw [List.dropWhile_cons, if_pos (h c (List.mem_cons_self c rest)),
      dropWhile_all p rest (fun x hx => h x (List.mem_cons_of_mem c hx))]

/-- `dropWhile` over a snoc whose last element fails the predicate. -/
theorem dropWhile_append_single (p : Char → Bool) (x : Char) (hx : p x = false) :
    ∀ u : List Char, (u ++ [x]).dropWhile p = u.dropWhile p ++ [x]
  | [] => by simp [List.dropWhile_cons, hx]
  | c :: u => by
    by_cases h : p c
    · simp only [List.cons_append, List.dropWhile_cons, h, if_true,
        dropWhile_append_single p x hx u]
    · simp [List.dropWhile_cons, h]

/-- `takeWhile` over a snoc whose last element fails the predicate. -/
theorem takeWhile_append_single (p : Char → Bool) (x : Char) (hx : p x = false) :
    ∀ u : List Char, (u ++ [x]).takeWhile p = u.takeWhile p
  | [] => by simp [List.takeWhile_cons, hx]
  | c :: u => by
    by_cases h : p c
    · simp only [List.cons_append, List.takeWhile_cons, h, if_true,
        takeWhile_append_single p x hx u]
    · simp [List.takeWhile_cons, h]

/-- `dropWhile` is idempotent. -/
theorem dropWhile_idem (p : Char → Bool) :
    ∀ l : List Char, (l.dropWhile p).dropWhile p = l.dropWhile p
  | [] => rfl
  | c :: rest => by
    by_cases h : p c
    · simp only [List.dropWhile_cons, h, if_true, dropWhile_idem p rest]
    · simp [List.dropWhile_cons, h]

/-- A prefix of a cons is empty or starts with the same head. -/
theorem pref_cons_cases {s w : List Char} {x : Char} (h : s <+: x :: w) :
    s = [] ∨ ∃ q, s = x :: q ∧ q <+: w := by
  rcases s with _ | ⟨a, s'⟩
  · exact Or.inl rfl
  · obtain ⟨t, ht⟩ := h
    injection ht with h1 h2
    exact Or.inr ⟨s', by rw [h1], ⟨t, h2⟩⟩

/-- A suffix of a snoc is empty or a suffix of the front part followed by
the last element. -/
theorem suffix_snoc_cases {s u : List Char} {x : Char} (h : s <:+ u ++ [x]) :
    s = [] ∨ ∃ u', u' <:+ u ∧ s = u' ++ [x] := by
  have hr : s.reverse <+: x :: u.reverse := by
    have := List.reverse_prefix.mpr h
    simpa using this
  rcases pref_cons_cases hr with he | ⟨q, hq, hqp⟩
  · left
    have := congrArg List.reverse he
    simpa using this
  · right
    refine ⟨q.reverse, ?_, ?_⟩
    · have h1 : (q.reverse).reverse <+: u.reverse := by simpa using hqp
      exact List.reverse_prefix.mp h1
    · have := congrArg List.reverse hq
      simpa using this

/-- Members of the end-trimmed list are members of the list. -/
theorem mem_of_trimEndL {x : Char} {l : List Char} (h : x ∈ trimEndL l) :
    x ∈ l := by
  unfold trimEndL at h
  rw [List.mem_reverse] at h
  have := (List.dropWhile_suffix isWsChar).subset h
  simpa using this

/-- Members of the start-trimmed list are members of the list. -/
theorem mem_of_trimStartL {x : Char} {l : List Char} (h : x ∈ trimStartL l) :
    x ∈ l :=
  (List.dropWhile_suffix isWsChar).subset h

/-- The end-trimmed list is a prefix of the list. -/
theorem trimEndL_pref (l : List Char) : trimEndL l <+: l := by
  have h : (trimEndL l).reverse <:+ l.reverse := by
    unfold trimEndL
    rw [List.reverse_reverse]
    exact List.dropWhile_suffix isWsChar
  exact List.reverse_suffix.mp h

/-- End trimming is idempotent. -/
theorem trimEndL_idem (l : List Char) : trimEndL (trimEndL l) = trimEndL l := by
  unfold trimEndL
  rw [List.reverse_reverse, dropWhile_idem]

/-- End trimming absorbs a trailing newline. -/
theorem trimEndL_snoc_nl (l : List Char) : trimEndL (l ++ ['\n']) = trimEndL l := by
  unfold trimEndL
  rw [List.reverse_append]
  simp [List.dropWhile_cons, isWsChar]

/-- The start-trimmed list is empty or begins with a non-whitespace
character. -/
theorem trimStartL_head :
    ∀ l : List Char, trimStartL l = [] ∨
      ∃ c t, trimStartL l = c :: t ∧ isWsChar c = false
  | [] => Or.inl rfl
  | c :: rest => by
    by_cases h : isWsChar c
    · have : trimStartL (c :: rest) = trimStartL rest := by
        simp [trimStartL, List.dropWhile_cons, h]
      rw [this]
      exact trimStartL_head rest
    · right
      exact ⟨c, rest, by simp [trimStartL, List.dropWhile_cons, h],
        Bool.not_eq_true _ ▸ by simpa using h⟩

/-! ### Claim C1: where the three finalization matchers fail -/

/-- The blank-line matcher fails unless the text starts with a newline. -/
theorem collapseMatch_cons_ne {c : Char} (rest : List Char) (h : c ≠ '\n') :
    collapseMatch (c :: rest) = none := by
  rw [collapseMatch.eq_def]
  split
  · rename_i r heq
    injection heq with h1 _
    exact absurd h1 h
  · rfl

/-- The separator matcher fails unless the text starts with a newline. -/
theorem sepMatch_cons_ne {c : Char} (rest : List Char) (h : c ≠ '\n') :
    sepMatch (c :: rest) = none := by
  rw [sepMatch.eq_def]
  split
  · rename_i r heq
    injection heq with h1 _
    exact absurd h1 h
  · rfl

/-- The heading matcher fails unless the text starts with a hash. -/
theorem headingMatch_cons_ne {c : Char} (rest : List Char) (h : c ≠ '#') :
    headingMatch (c :: rest) = none := by
  rw [headingMatch.eq_def]
  split
  · rename_i x heq
    injection heq with h1 _
    exact absurd h1 h
  · rfl

/-- After the hash run, a missing space makes the attempt fail. -/
theorem headingAfterHash_ne {c : Char} (hashes r : List Char) (h : c ≠ ' ') :
    headingAfterHash hashes (c :: r) = none := by
  rw [headingAfterHash.eq_def]
  split
  · rename_i heq
    injection heq with h1 _
    exact absurd h1 h
  · rfl

/-- The tail of the heading attempt fails when the rest of the text holds
no newline at all (the mandatory newline run is missing). -/
theorem headingTail_none_noNl (hashes r2 : List Char) (h : '\n' ∉ r2) :
    headingTail hashes r2 = none := by
  have hall : ∀ c ∈ r2, (fun c => decide (c ≠ '\n')) c = true :=
    fun c hc => decide_eq_true (fun e => h (e ▸ hc))
  have hta : r2.takeWhile (fun c => c ≠ '\n') = r2 := takeWhile_all _ r2 hall
  have hda : r2.dropWhile (fun c => c ≠ '\n') = [] := dropWhile_all _ r2 hall
  simp only [headingTail, hta, hda, List.takeWhile_nil]
  cases r2 <;> simp

/-- The tail of the heading attempt fails when everything after the line
is one final newline: the backreference would have to match past the end
of the text. -/
theorem headingTail_none_endNl (hashes w : List Char) (h : '\n' ∉ w) :
    headingTail hashes (w ++ ['\n']) = none := by
  have hall : ∀ c ∈ w, (fun c => decide (c ≠ '\n')) c = true :=
    fun c hc => decide_eq_true (fun e => h (e ▸ hc))
  have hta : (w ++ ['\n']).takeWhile (fun c => c ≠ '\n') = w := by
    rw [takeWhile_append_single _ _ (by decide) w]
    exact takeWhile_all _ w hall
  have hda : (w ++ ['\n']).dropWhile (fun c => c ≠ '\n') = ['\n'] := by
    rw [dropWhile_append_single _ _ (by decide) w, dropWhile_all _ w hall]
    rfl
  simp only [headingTail, hta, hda]
  cases w with
  | nil => simp
  | cons a t =>
    simp only [List.isEmpty_cons, Bool.false_eq_true, if_false]
    have hpre : (hashes ++ ' ' :: a :: t).isPrefixOf
        (['\n'].dropWhile (fun c => c = '\n')) = false := by
      cases hashes <;> rfl
    simp [hpre]

/-- The heading matcher fails on text without a newline. -/
theorem headingMatch_none_noNl (l : List Char) (h : '\n' ∉ l) :
    headingMatch l = none := by
  rcases l with _ | ⟨c, u'⟩
  · rfl
  · by_cases hc : c = '#'
    · subst hc
      have e : headingMatch ('#' :: u') =
          headingAfterHash (('#' :: u').takeWhile (fun c => c = '#'))
            (('#' :: u').dropWhile (fun c => c = '#')) := rfl
      rw [e]
      rcases hq : ('#' :: u').dropWhile (fun c => c = '#') with _ | ⟨d, w⟩
      · rfl
      · by_cases hd : d = ' '
        · subst hd
          have e2 : headingAfterHash (('#' :: u').takeWhile (fun c => c = '#'))
              (' ' :: w) =
              headingTail (('#' :: u').takeWhile (fun c => c = '#')) w := rfl
          rw [e2]
          apply headingTail_none_noNl
          intro hw
          have h2 : '\n' ∈ (' ' :: w) := List.mem_cons_of_mem _ hw
          rw [← hq] at h2
          exact h ((List.dropWhile_suffix _).subset h2)
        · exact headingAfterHash_ne _ _ hd
    · exact headingMatch_cons_ne u' hc

/-- The heading matcher fails on text whose only newline is the final
character. -/
theorem headingMatch_none_endNl (u : List Char) (h : '\n' ∉ u) :
    headingMatch (u ++ ['\n']) = none := by
  rcases u with _ | ⟨c, u'⟩
  · rfl
  · by_cases hc : c = '#'
    · subst hc
      rw [List.cons_append]
      have e : headingMatch ('#' :: (u' ++ ['\n'])) =
          headingAfterHash
            (('#' :: (u' ++ ['\n'])).takeWhile (fun c => c = '#'))
            (('#' :: (u' ++ ['\n'])).dropWhile (fun c => c = '#')) := rfl
      rw [e]
      have hd : ('#' :: (u' ++ ['\n'])).dropWhile (fun c => c = '#') =
          ('#' :: u').dropWhile (fun c => c = '#') ++ ['\n'] := by
        rw [← List.cons_append]
        exact dropWhile_append_single _ _ (by decide) _
      rw [hd]
      rcases hq : ('#' :: u').dropWhile (fun c => c = '#') with _ | ⟨d, w⟩
      · exact headingAfterHash_ne _ _ (by decide)
      · rw [List.cons_append]
        by_cases hds : d = ' '
        · subst hds
          have e2 : headingAfterHash
              (('#' :: (u' ++ ['\n'])).takeWhile (fun c => c = '#'))
              (' ' :: (w ++ ['\n'])) =
              headingTail
                (('#' :: (u' ++ ['\n'])).takeWhile (fun c => c = '#'))
                (w ++ ['\n']) := rfl
          rw [e2]
          apply headingTail_none_endNl
          intro hw
          have h2 : '\n' ∈ (' ' :: w) := List.mem_cons_of_mem _ hw
          rw [← hq] at h2
          exact h ((List.dropWhile_suffix _).subset h2)
        · exact headingAfterHash_ne _ _ hds
    · rw [List.cons_append]
      exact headingMatch_cons_ne _ hc

/-! ### Claim C1: pass identities and the idempotence analysis -/

/-- The heading pass leaves newline-free text unchanged. -/
theorem scan_heading_id_noNl (n : Nat) (l : List Char) (h : '\n' ∉ l) :
    scanRepl headingMatch n l = l :=
  scanRepl_id _ n l (fun _ _ hs =>
    headingMatch_none_noNl _ (fun hm => h (hs.subset hm)))

/-- The blank-line pass leaves newline-free text unchanged. -/
theorem scan_collapse_id_noNl (n : Nat) (l : List Char) (h : '\n' ∉ l) :
    scanRepl collapseMatch n l = l :=
  scanRepl_id _ n l (fun c rest hs => collapseMatch_cons_ne rest
    (fun e => h (hs.subset (e ▸ List.mem_cons_self c rest))))

/-- The separator pass leaves newline-free text unchanged. -/
theorem scan_sep_id_noNl (n : Nat) (l : List Char) (h : '\n' ∉ l) :
    scanRepl sepMatch n l = l :=
  scanRepl_id _ n l (fun c rest hs => sepMatch_cons_ne rest
    (fun e => h (hs.subset (e ▸ List.mem_cons_self c rest))))

/-- The heading pass leaves text whose only newline is final unchanged. -/
theorem scan_heading_id_endNl (n : Nat) (u : List Char) (h : '\n' ∉ u) :
    scanRepl headingMatch n (u ++ ['\n']) = u ++ ['\n'] := by
  refine scanRepl_id _ n _ (fun c rest hs => ?_)
  rcases suffix_snoc_cases hs with he | ⟨u', hu', he⟩
  · exact (List.cons_ne_nil c rest he).elim
  · rw [he]
    exact headingMatch_none_endNl u' (fun hm => h (hu'.subset hm))

/-- The blank-line pass leaves text whose only newline is final
unchanged. -/
theorem scan_collapse_id_endNl (n : Nat) (u : List Char) (h : '\n' ∉ u) :
    scanRepl collapseMatch n (u ++ ['\n']) = u ++ ['\n'] := by
  refine scanRepl_id _ n _ (fun c rest hs => ?_)
  rcases suffix_snoc_cases hs with he | ⟨u', hu', he⟩
  · exact (List.cons_ne_nil c rest he).elim
  · rw [he]
    rcases u' with _ | ⟨d, t⟩
    · rfl
    · rw [List.cons_append]
      exact collapseMatch_cons_ne _
        (fun e => h (hu'.subset (e ▸ List.mem_cons_self d t)))

/-- The separator pass leaves text whose only newline is final
unchanged. -/
theorem scan_sep_id_endNl (n : Nat) (u : List Char) (h : '\n' ∉ u) :
    scanRepl sepMatch n (u ++ ['\n']) = u ++ ['\n'] := by
  refine scanRepl_id _ n _ (fun c rest hs => ?_)
  rcases suffix_snoc_cases hs with he | ⟨u', hu', he⟩
  · exact (List.cons_ne_nil c rest he).elim
  · rw [he]
    rcases u' with _ | ⟨d, t⟩
    · rfl
    · rw [List.cons_append]
      exact sepMatch_cons_ne _
        (fun e => h (hu'.subset (e ▸ List.mem_cons_self d t)))

/-- Splitting newline-free text yields one line. -/
theorem splitNl_noNl : ∀ l : List Char, '\n' ∉ l → splitNl l = [l]
  | [], _ => rfl
  | c :: rest, h => by
    have hc : c ≠ '\n' := fun e => h (e ▸ List.mem_cons_self c rest)
    simp only [splitNl, if_neg hc,
      splitNl_noNl rest (fun hm => h (List.mem_cons_of_mem c hm))]

/-- Splitting text whose only newline is final yields the front line and
one empty line. -/
theorem splitNl_endNl :
    ∀ u : List Char, '\n' ∉ u → splitNl (u ++ ['\n']) = [u, []]
  | [], _ => rfl
  | c :: rest, h => by
    have hc : c ≠ '\n' := fun e => h (e ▸ List.mem_cons_self c rest)
    rw [List.cons_append]
    simp only [splitNl, if_neg hc,
      splitNl_endNl rest (fun hm => h (List.mem_cons_of_mem c hm))]

/-- On newline-free text the finalization pass reduces to trimming and
appending one newline. -/
theorem finalize_noNl_formula (l : List Char) (h : '\n' ∉ l) :
    finalizeOutput l = trimL (trimEndL l) ++ ['\n'] := by
  simp only [finalizeOutput]
  rw [scan_heading_id_noNl _ _ h, scan_collapse_id_noNl _ _ h,
    scan_sep_id_noNl _ _ h, splitNl_noNl l h]
  simp [joinNl]

/-- C1, counterexample: the separator-normalization rule re-matches the
blank line it inserted before the `---` marker, so a second finalization
pass widens the gap to two blank lines — the pass is not idempotent. -/
theorem finalize_second_pass_changes :
    finalizeOutput (finalizeOutput "a\n---\nb".data) ≠
      finalizeOutput "a\n---\nb".data := by decide

/-- C1, amended: the finalization pass is idempotent on single-line
documents (text without a newline), where it reduces to trimming plus one
trailing newline; in general a second pass can differ, because the
separator rule re-expands the spacing it produced and per-line trimming
can create fresh blank-line runs. -/
theorem finalize_idempotent_no_newline (l : List Char) (h : '\n' ∉ l) :
    finalizeOutput (finalizeOutput l) = finalizeOutput l := by
  rw [finalize_noNl_formula l h]
  have hw : '\n' ∉ trimL (trimEndL l) := fun hm =>
    h (mem_of_trimEndL (mem_of_trimStartL (mem_of_trimEndL hm)))
  have hA : trimEndL (trimL (trimEndL l)) = trimL (trimEndL l) := by
    show trimEndL (trimEndL (trimStartL (trimEndL l))) =
      trimEndL (trimStartL (trimEndL l))
    exact trimEndL_idem _
  have hhead : trimL (trimEndL l) = [] ∨
      ∃ c t, trimL (trimEndL l) = c :: t ∧ isWsChar c = false := by
    rcases trimStartL_head (trimEndL l) with hz | ⟨c0, t0, hz, hz0⟩
    · left
      show trimEndL (trimStartL (trimEndL l)) = []
      rw [hz]
      rfl
    · rcases hwc : trimL (trimEndL l) with _ | ⟨c, t⟩
      · exact Or.inl rfl
      · right
        refine ⟨c, t, rfl, ?_⟩
        have hp : trimL (trimEndL l) <+: c0 :: t0 := by
          show trimEndL (trimStartL (trimEndL l)) <+: c0 :: t0
          rw [hz]
          exact hz ▸ trimEndL_pref _
        rw [hwc] at hp
        rcases pref_cons_cases hp with he | ⟨q, he, _⟩
        · exact (List.cons_ne_nil c t he).elim
        · injection he with h1 _
          rw [h1]
          exact hz0
  generalize hgen : trimL (trimEndL l) = w at hw hA hhead ⊢
  rcases hhead with hnil | ⟨c, t, hct, hcw⟩
  · rw [hnil]
    decide
  · rw [hct] at hw hA ⊢
    simp only [finalizeOutput]
    rw [scan_heading_id_endNl _ _ hw, scan_collapse_id_endNl _ _ hw,
      scan_sep_id_endNl _ _ hw, splitNl_endNl _ hw]
    have hmap : List.map trimEndL [c :: t, []] = [c :: t, []] := by
      simp only [List.map]
      rw [hA]
      rfl
    rw [hmap]
    have hjoin : joinNl [c :: t, []] = (c :: t) ++ ['\n'] := rfl
    rw [hjoin]
    have hS : trimStartL ((c :: t) ++ ['\n']) = (c :: t) ++ ['\n'] := by
      rw [List.cons_append]
      show List.dropWhile isWsChar (c :: (t ++ ['\n'])) = c :: (t ++ ['\n'])
      rw [List.dropWhile_cons, if_neg (by simp [hcw])]
    have hfinal : trimL ((c :: t) ++ ['\n']) = c :: t := by
      show trimEndL (trimStartL ((c :: t) ++ ['\n'])) = c :: t
      rw [hS, trimEndL_snoc_nl, hA]
    rw [hfinal]

/-- Witness for the amended C1 on a concrete single-line document. -/
theorem finalize_idempotent_no_newline_witness :
    '\n' ∉ "  # Vite  ".data ∧
      finalizeOutput (finalizeOutput "  # Vite  ".data) =
        finalizeOutput "  # Vite  ".data :=
  ⟨by decide, finalize_idempotent_no_newline "  # Vite  ".data (by decide)⟩
